import Mathlib

/-!
Verification of the Sherpa.ai Federated Learning Framework aggregation
operators and data-poisoning attack, as defined in the notebooks
`federated_learning_basic_concepts_aggregation_operators.ipynb` and
`federated_learning_attack_simulation_poisoning_data.ipynb`.

Model parameters are embedded as lists of flattened numeric blocks over ℚ
(exact arithmetic standing in for the floating semantics, as the spec's
"within floating tolerance" clauses allow).  A per-node parameter set is a
`List Block` (one block per layer); the aggregators take a
`List (List Block)` indexed client-first, mirroring the numpy array
`clients_params_array` of shape (num_clients, num_layers, ...).
-/

/-- One layer's parameters, flattened elementwise (a numpy array viewed as
its element sequence). -/
abbrev Block := List ℚ

/-- Elementwise addition of two blocks, as numpy `+` on equal-shape arrays. -/
def blockAdd (a b : Block) : Block := List.zipWith (fun x y => x + y) a b

/-- Scalar multiple of a block, as numpy scalar `*` broadcast over an array. -/
def blockScale (c : ℚ) (a : Block) : Block := a.map (fun x => c * x)

/-- numpy `np.sum(blocks, axis=0)`: elementwise sum of a stack of
equal-shape blocks. -/
def npSumAxis0 : List Block → Block
  | [] => []
  | b :: bs => bs.foldl blockAdd b

/-- numpy `np.mean(blocks, axis=0)`: elementwise arithmetic mean of a stack
of equal-shape blocks, i.e. the elementwise sum scaled by `1 / count`. -/
def npMeanAxis0 (bs : List Block) : Block :=
  blockScale (1 / (bs.length : ℚ)) (npSumAxis0 bs)

/-- `FedAvgAggregator.aggregate_weights` from the aggregation-operators
notebook: builds the stacked array `clients_params_array`, reads
`num_layers` from its second dimension, and returns for each layer
`np.mean(clients_params_array[:, layer], axis=0)`. -/
def FedAvgAggregator.aggregate_weights (clients_params : List (List Block)) : List Block :=
  let num_layers := (clients_params.headD []).length
  (List.range num_layers).map (fun layer =>
    npMeanAxis0 (clients_params.map (fun cp => cp.getD layer [])))

/-- `WeightedFedAvgAggregator.aggregate_weights` from the
aggregation-operators notebook: `percentage` embeds the aggregator's
`self._percentage` field; the method scales each client's whole parameter
stack by `self._percentage[client]` (the `ponderated_weights` array) and
returns for each layer `np.sum(ponderated_weights[:, layer], axis=0)`.
No normalization of `percentage` is performed anywhere. -/
def WeightedFedAvgAggregator.aggregate_weights (percentage : List ℚ)
    (clients_params : List (List Block)) : List Block :=
  let num_clients := clients_params.length
  let num_layers := (clients_params.headD []).length
  let ponderated_weights := (List.range num_clients).map (fun client =>
    (clients_params.getD client []).map (blockScale (percentage.getD client 0)))
  (List.range num_layers).map (fun layer =>
    npSumAxis0 (ponderated_weights.map (fun pw => pw.getD layer [])))

/-- `ClusterFedAvgAggregator.aggregate_weights` from the
aggregation-operators notebook: concatenates all clients' centroid arrays
(`np.concatenate`), sets `n_clusters` to `clients_params[0].shape[0]`, and
returns the `cluster_centers_` of fitting a KMeans model on the
concatenation.  `sklearn.cluster.KMeans(n_clusters, init=kmeanspp).fit` is
external to the repository; it is embedded as the explicit function
argument `kmeans_fit`, mapping a target cluster count and a point list to
the fitted cluster centres.  The source constructs `KMeans` with default
`random_state`, so `kmeans_fit` closes over the ambient global random
state; no seed argument appears in `aggregate_weights`. -/
def ClusterFedAvgAggregator.aggregate_weights
    (kmeans_fit : ℕ → List Block → List Block)
    (clients_params : List (List Block)) : List Block :=
  let clients_params_array := clients_params.flatten
  let n_clusters := (clients_params.headD []).length
  kmeans_fit n_clusters clients_params_array

/-- All per-node parameter sets have the shape of the first one: the same
number of blocks and the same length for each block.  This is the
rectangularity precondition under which `np.array(clients_params)` yields a
numeric array of shape (num_clients, num_layers, ...). -/
def SameShape (clients_params : List (List Block)) : Prop :=
  ∀ cp ∈ clients_params,
    cp.map List.length = (clients_params.headD []).map List.length

instance (clients_params : List (List Block)) : Decidable (SameShape clients_params) := by
  unfold SameShape; infer_instance

/-- A node's private labeled dataset: the `data`/`label` attribute pair of
the framework's labeled-data object, mutated in place by transformations
(in-place mutation is embedded as state passing). -/
structure LabeledData (α β : Type) where
  data : α
  label : β

/-- Modelled from the spec: the class `DataNode` of
`shfl/private/node.py` is not under the sources provided; per the spec a
DataNode owns one LabeledData instance as its private data. -/
structure DataNode (α β : Type) where
  privateData : LabeledData α β

/-- Modelled from the spec: `DataNode.apply_data_transformation` of
`shfl/private/node.py` is not under the sources provided; per the spec,
`apply_transformation(t)` calls `t.apply(privateData)`, which mutates the
private data in place.  A transformation's `apply` method is embedded as a
function on LabeledData, and the in-place mutation as state passing. -/
def DataNode.apply_data_transformation {α β : Type} (node : DataNode α β)
    (t : LabeledData α β → LabeledData α β) : DataNode α β :=
  { node with privateData := t node.privateData }

/-- Modelled from the spec: `DataNode.query` of `shfl/private/node.py` is
not under the sources provided; per the spec a query under the default
unprotected access filter returns the node's private data by value. -/
def DataNode.query {α β : Type} (node : DataNode α β) : LabeledData α β :=
  node.privateData

/-- Modelled from the spec: `apply_federated_transformation` of
`shfl/private/federated_operation.py` is not under the sources provided;
per the spec it invokes `DataNode.apply_transformation(t)` on every node of
the federated collection. -/
def apply_federated_transformation {α β : Type} (federated_data : List (DataNode α β))
    (t : LabeledData α β → LabeledData α β) : List (DataNode α β) :=
  federated_data.map (fun node => node.apply_data_transformation t)

/-- `ShuffleNode.apply` from the attack-simulation notebook:
`random.shuffle(labeled_data.label)` reorders the label sequence in place
by a random permutation.  The permutation drawn by the Python global
random generator is embedded as the explicit index arrangement `js` (a
rearrangement of `range(len(label))`); entry `i` of the shuffled list is
the old entry at position `js[i]`. -/
def ShuffleNode.apply {α γ : Type} [Inhabited γ] (js : List ℕ)
    (labeled_data : LabeledData α (List γ)) : LabeledData α (List γ) :=
  { labeled_data with label := js.map (fun i => labeled_data.label.getD i default) }

/-- `FederatedPoisoningDataAttack` state from the attack-simulation
notebook: the constructor stores `percentage` and an empty `adversaries`
list; the `adversaries` property exposes the stored list. -/
structure FederatedPoisoningDataAttack where
  percentage : ℚ
  adversaries : List ℕ

/-- `FederatedPoisoningDataAttack.apply_attack` from the attack-simulation
notebook: draws `random.sample(range(num_nodes), k=int(percentage / 100 *
num_nodes))`, stores it in `self._adversaries`, builds the 0/1 list
`boolean_adversaries` over `range(num_nodes)`, and applies the shuffling
transformation to exactly the nodes zipped with a nonzero boolean.  The
sample drawn by the Python global random generator is embedded as the
explicit argument `sample`, and the `ShuffleNode()` transformation as the
argument `shuffleT`; the mutated attack object and federation are
returned as a pair. -/
def FederatedPoisoningDataAttack.apply_attack {α β : Type}
    (atk : FederatedPoisoningDataAttack) (sample : List ℕ)
    (shuffleT : LabeledData α β → LabeledData α β)
    (federated_data : List (DataNode α β)) :
    FederatedPoisoningDataAttack × List (DataNode α β) :=
  let num_nodes := federated_data.length
  let list_nodes := List.range num_nodes
  let boolean_adversaries := list_nodes.map (fun x => if x ∈ sample then (1 : ℕ) else 0)
  ({ atk with adversaries := sample },
    (federated_data.zip boolean_adversaries).map
      (fun nb => if nb.2 ≠ 0 then nb.1.apply_data_transformation shuffleT else nb.1))

/-- A nonempty list's `headD` is its head. -/
lemma headD_eq_head_of_ne_nil {α : Type} (l : List α) (d : α) (h : l ≠ []) :
    l.headD d = l.head h := by
  cases l with
  | nil => exact absurd rfl h
  | cons a t => rfl

/-- C6: ClusterConsensus aggregation concatenates all nodes' centroid sets
into one point set (the concatenation holds exactly the centroids of the
individual nodes), re-clusters that set with the target centroid count
taken from the first node's centroid set, and returns the resulting
cluster centres as the aggregate. -/
theorem cluster_aggregate_concat_recluster
    (kmeans_fit : ℕ → List Block → List Block)
    (clients_params : List (List Block)) (h : clients_params ≠ []) :
    ClusterFedAvgAggregator.aggregate_weights kmeans_fit clients_params
      = kmeans_fit ((clients_params.head h).length) clients_params.flatten
    ∧ ∀ p : Block, p ∈ clients_params.flatten ↔ ∃ cp ∈ clients_params, p ∈ cp := by
  constructor
  · unfold ClusterFedAvgAggregator.aggregate_weights
    rw [headD_eq_head_of_ne_nil _ _ h]
  · intro p
    exact List.mem_flatten

/-- Witness for C6 at a concrete clustering function and input. -/
theorem cluster_aggregate_concat_recluster_witness :
    ([[[ (0:ℚ) ], [1]]] : List (List Block)) ≠ []
    ∧ (ClusterFedAvgAggregator.aggregate_weights (fun n pts => pts.take n) [[[(0:ℚ)], [1]]]
        = (fun (n : ℕ) (pts : List Block) => pts.take n)
            (([[[(0:ℚ)], [1]]] : List (List Block)).head (by decide)).length
            ([[[(0:ℚ)], [1]]] : List (List Block)).flatten
      ∧ ∀ p : Block, p ∈ ([[[(0:ℚ)], [1]]] : List (List Block)).flatten
          ↔ ∃ cp ∈ ([[[(0:ℚ)], [1]]] : List (List Block)), p ∈ cp) :=
  ⟨by decide,
   cluster_aggregate_concat_recluster (fun n pts => pts.take n) [[[(0:ℚ)], [1]]] (by decide)⟩

/-- C7 counterexample: `aggregate_weights` takes no seed argument; its
output depends on the ambient clustering state.  Two runs on identical
caller-supplied inputs, under two ambient k-means initializations (modelled
by two `kmeans_fit` functions, as `KMeans(init=kmeanspp)` with default
`random_state` draws from the global random generator), return different
aggregated centroids — so no caller-supplied seed determines the result. -/
theorem cluster_aggregate_no_seed_counterexample :
    ClusterFedAvgAggregator.aggregate_weights (fun n pts => pts.take n) [[[(0:ℚ)], [1]]]
      ≠ ClusterFedAvgAggregator.aggregate_weights (fun n pts => pts.reverse.take n)
          [[[(0:ℚ)], [1]]] := by
  decide

/-- C7 amended: ClusterConsensus aggregation exposes no seed parameter; its
result is determined by the inputs together with the ambient re-clustering
state: whenever two ambient clustering states agree on the concatenated
point set at the target cluster count, the two aggregation calls agree. -/
theorem cluster_aggregate_determined_by_ambient_state
    (f g : ℕ → List Block → List Block) (clients_params : List (List Block))
    (h : f ((clients_params.headD []).length) clients_params.flatten
       = g ((clients_params.headD []).length) clients_params.flatten) :
    ClusterFedAvgAggregator.aggregate_weights f clients_params
      = ClusterFedAvgAggregator.aggregate_weights g clients_params := by
  unfold ClusterFedAvgAggregator.aggregate_weights
  exact h

/-- Witness for the amended C7 at two concrete ambient states agreeing on
the given input. -/
theorem cluster_aggregate_determined_by_ambient_state_witness :
    ((fun (n : ℕ) (pts : List Block) => pts.take n) 2 ([[[(0:ℚ)], [1]]] : List (List Block)).flatten
      = (fun (_ : ℕ) (pts : List Block) => pts.take 2) 2 ([[[(0:ℚ)], [1]]] : List (List Block)).flatten)
    ∧ ClusterFedAvgAggregator.aggregate_weights (fun n pts => pts.take n) [[[(0:ℚ)], [1]]]
        = ClusterFedAvgAggregator.aggregate_weights (fun _ pts => pts.take 2) [[[(0:ℚ)], [1]]] :=
  ⟨by decide,
   cluster_aggregate_determined_by_ambient_state (fun n pts => pts.take n)
     (fun _ pts => pts.take 2) [[[(0:ℚ)], [1]]] (by decide)⟩

/-- Length of an elementwise block addition. -/
lemma blockAdd_length (a b : Block) : (blockAdd a b).length = min a.length b.length := by
  simp [blockAdd]

/-- Entry of an elementwise block addition, inside both bounds. -/
lemma blockAdd_getD (a b : Block) (j : ℕ) (hja : j < a.length) (hjb : j < b.length) :
    (blockAdd a b).getD j 0 = a.getD j 0 + b.getD j 0 := by
  have hj : j < (blockAdd a b).length := by rw [blockAdd_length]; omega
  rw [List.getD_eq_getElem _ _ hj, List.getD_eq_getElem _ _ hja, List.getD_eq_getElem _ _ hjb]
  simp [blockAdd]

/-- Entry of a scaled block; with default 0 no bound is needed since the
default also scales to 0. -/
lemma blockScale_getD (c : ℚ) (a : Block) (j : ℕ) :
    (blockScale c a).getD j 0 = c * a.getD j 0 := by
  by_cases hj : j < a.length
  · rw [List.getD_eq_getElem _ _ (by simpa [blockScale] using hj),
      List.getD_eq_getElem _ _ hj]
    simp [blockScale]
  · have hle : a.length ≤ j := Nat.le_of_not_lt hj
    rw [List.getD_eq_default _ _ (by simpa [blockScale] using hle),
      List.getD_eq_default _ _ hle, mul_zero]

/-- Length of a left fold of block additions over equal-length blocks. -/
lemma foldl_blockAdd_length (d : ℕ) (bs : List Block) (acc : Block)
    (hbs : ∀ b ∈ bs, b.length = d) (hacc : acc.length = d) :
    (bs.foldl blockAdd acc).length = d := by
  induction bs generalizing acc with
  | nil => simpa using hacc
  | cons b t ih =>
    simp only [List.foldl_cons]
    refine ih (blockAdd acc b) (fun x hx => hbs x (List.mem_cons_of_mem _ hx)) ?_
    rw [blockAdd_length, hacc, hbs b (List.mem_cons_self _ _)]
    omega

/-- Entry of a left fold of block additions: the accumulator entry plus
the sum of the corresponding entries of the folded blocks. -/
lemma foldl_blockAdd_getD (d j : ℕ) (hj : j < d) (bs : List Block) (acc : Block)
    (hbs : ∀ b ∈ bs, b.length = d) (hacc : acc.length = d) :
    (bs.foldl blockAdd acc).getD j 0
      = acc.getD j 0 + (bs.map (fun b => b.getD j 0)).sum := by
  induction bs generalizing acc with
  | nil => simp
  | cons b t ih =>
    simp only [List.foldl_cons, List.map_cons, List.sum_cons]
    rw [ih (blockAdd acc b) (fun x hx => hbs x (List.mem_cons_of_mem _ hx))
      (by rw [blockAdd_length, hacc, hbs b (List.mem_cons_self _ _)]; omega)]
    rw [blockAdd_getD acc b j (by rw [hacc]; exact hj) (by rw [hbs b (List.mem_cons_self _ _)]; exact hj)]
    ring

/-- Entry of the elementwise stack sum. -/
lemma npSumAxis0_getD (d j : ℕ) (hj : j < d) (bs : List Block)
    (hbs : ∀ b ∈ bs, b.length = d) :
    (npSumAxis0 bs).getD j 0 = (bs.map (fun b => b.getD j 0)).sum := by
  cases bs with
  | nil => simp [npSumAxis0]
  | cons b t =>
    simp only [npSumAxis0, List.map_cons, List.sum_cons]
    rw [foldl_blockAdd_getD d j hj t b (fun x hx => hbs x (List.mem_cons_of_mem _ hx))
      (hbs b (List.mem_cons_self _ _))]

/-- Length of the elementwise stack sum of a nonempty stack. -/
lemma npSumAxis0_length (d : ℕ) (bs : List Block) (hne : bs ≠ [])
    (hbs : ∀ b ∈ bs, b.length = d) :
    (npSumAxis0 bs).length = d := by
  cases bs with
  | nil => exact absurd rfl hne
  | cons b t =>
    exact foldl_blockAdd_length d t b (fun x hx => hbs x (List.mem_cons_of_mem _ hx))
      (hbs b (List.mem_cons_self _ _))

/-- Entry of the elementwise stack mean. -/
lemma npMeanAxis0_getD (d j : ℕ) (hj : j < d) (bs : List Block)
    (hbs : ∀ b ∈ bs, b.length = d) :
    (npMeanAxis0 bs).getD j 0
      = (1 / (bs.length : ℚ)) * (bs.map (fun b => b.getD j 0)).sum := by
  unfold npMeanAxis0
  rw [blockScale_getD, npSumAxis0_getD d j hj bs hbs]

/-- Length of the elementwise stack mean of a nonempty stack. -/
lemma npMeanAxis0_length (d : ℕ) (bs : List Block) (hne : bs ≠ [])
    (hbs : ∀ b ∈ bs, b.length = d) :
    (npMeanAxis0 bs).length = d := by
  unfold npMeanAxis0 blockScale
  rw [List.length_map]
  exact npSumAxis0_length d bs hne hbs

/-- The mapped length list read with `getD` agrees with the length of the
`getD`-selected block, including out of bounds where both are 0. -/
lemma getD_map_length (cp : List Block) (l : ℕ) :
    (cp.map List.length).getD l 0 = (cp.getD l []).length := by
  by_cases hl : l < cp.length
  · rw [List.getD_eq_getElem _ _ (by simpa using hl), List.getD_eq_getElem _ _ hl]
    simp
  · have hle : cp.length ≤ l := Nat.le_of_not_lt hl
    rw [List.getD_eq_default _ _ (by simpa using hle), List.getD_eq_default _ _ hle]
    simp

/-- Under `SameShape`, every member's selected block has the first
client's block length. -/
lemma SameShape.block_length {clients_params : List (List Block)}
    (h : SameShape clients_params) {cp : List Block} (hcp : cp ∈ clients_params) (l : ℕ) :
    (cp.getD l []).length = ((clients_params.headD []).getD l []).length := by
  rw [← getD_map_length, ← getD_map_length, h cp hcp]

/-- Elementwise characterization of the Mean aggregate: entry (l, j) is
one over the client count times the sum of the clients' entries (l, j). -/
lemma fedavg_getD (clients_params : List (List Block)) (hsh : SameShape clients_params)
    (l j : ℕ) (hl : l < (clients_params.headD []).length)
    (hj : j < ((clients_params.headD []).getD l []).length) :
    ((FedAvgAggregator.aggregate_weights clients_params).getD l []).getD j 0
      = (1 / (clients_params.length : ℚ))
          * (clients_params.map (fun cp => (cp.getD l []).getD j 0)).sum := by
  have hblock : (FedAvgAggregator.aggregate_weights clients_params).getD l []
      = npMeanAxis0 (clients_params.map (fun cp => cp.getD l [])) := by
    unfold FedAvgAggregator.aggregate_weights
    rw [List.getD_eq_getElem _ _ (by simpa using hl)]
    simp only [List.getElem_map, List.getElem_range]
  rw [hblock]
  rw [npMeanAxis0_getD (((clients_params.headD []).getD l []).length) j hj _ ?_]
  · rw [List.map_map, List.length_map]
    rfl
  · intro b hb
    obtain ⟨cp, hcp, rfl⟩ := List.mem_map.mp hb
    exact SameShape.block_length hsh hcp l

/-- C1: For every client-parameter list of identical shape (nonempty
whenever a layer index exists), Mean aggregation returns per parameter
block the elementwise arithmetic mean of that block across all nodes:
entry (l, j) of the aggregate equals (1 / num_clients) times the sum over
the clients of their entries (l, j). -/
theorem fedavg_aggregate_is_elementwise_mean (clients_params : List (List Block))
    (hsh : SameShape clients_params) (l j : ℕ)
    (hl : l < (clients_params.headD []).length)
    (hj : j < ((clients_params.headD []).getD l []).length) :
    ((FedAvgAggregator.aggregate_weights clients_params).getD l []).getD j 0
      = (1 / (clients_params.length : ℚ))
          * (clients_params.map (fun cp => (cp.getD l []).getD j 0)).sum :=
  fedavg_getD clients_params hsh l j hl hj

/-- Witness for C1 at two concrete clients with two layers, read at layer
0, entry 1: the aggregate entry is (1/2) * (2 + 4). -/
theorem fedavg_aggregate_is_elementwise_mean_witness :
    SameShape [[[(1:ℚ), 2], [3]], [[3, 4], [5]]]
    ∧ ((FedAvgAggregator.aggregate_weights [[[(1:ℚ), 2], [3]], [[3, 4], [5]]]).getD 0 []).getD 1 0
        = (1 / (([[[(1:ℚ), 2], [3]], [[3, 4], [5]]] : List (List Block)).length : ℚ))
            * (([[[(1:ℚ), 2], [3]], [[3, 4], [5]]] : List (List Block)).map
                (fun cp => (cp.getD 0 []).getD 1 0)).sum :=
  ⟨by decide, fedavg_aggregate_is_elementwise_mean [[[(1:ℚ), 2], [3]], [[3, 4], [5]]]
    (by decide) 0 1 (by decide) (by decide)⟩

/-- Selecting a block from a blockwise-scaled stack commutes with the
scaling, the default empty block being fixed by scaling. -/
lemma map_blockScale_getD (c : ℚ) (xs : List Block) (l : ℕ) :
    (xs.map (blockScale c)).getD l [] = blockScale c (xs.getD l []) := by
  by_cases hl : l < xs.length
  · rw [List.getD_eq_getElem _ _ (by simpa using hl), List.getD_eq_getElem _ _ hl]
    simp
  · have hle : xs.length ≤ l := Nat.le_of_not_lt hl
    rw [List.getD_eq_default _ _ (by simpa using hle), List.getD_eq_default _ _ hle]
    rfl

/-- An in-bounds getD selection is a member of the list. -/
lemma getD_mem {α : Type} (l : List α) (d : α) (i : ℕ) (h : i < l.length) :
    l.getD i d ∈ l := by
  rw [List.getD_eq_getElem _ _ h]
  exact List.getElem_mem h

/-- Elementwise characterization of the WeightedMean aggregate: entry
(l, j) is the sum over clients of that client's supplied weight times its
entry (l, j); the weights enter exactly as supplied. -/
lemma weighted_getD (percentage : List ℚ) (clients_params : List (List Block))
    (hsh : SameShape clients_params) (l j : ℕ)
    (hl : l < (clients_params.headD []).length)
    (hj : j < ((clients_params.headD []).getD l []).length) :
    ((WeightedFedAvgAggregator.aggregate_weights percentage clients_params).getD l []).getD j 0
      = ((List.range clients_params.length).map
          (fun client => percentage.getD client 0
            * ((clients_params.getD client []).getD l []).getD j 0)).sum := by
  have hblock : (WeightedFedAvgAggregator.aggregate_weights percentage clients_params).getD l []
      = npSumAxis0 ((List.range clients_params.length).map
          (fun client => blockScale (percentage.getD client 0)
            ((clients_params.getD client []).getD l []))) := by
    unfold WeightedFedAvgAggregator.aggregate_weights
    rw [List.getD_eq_getElem _ _ (by simpa using hl)]
    simp only [List.getElem_map, List.getElem_range, List.map_map]
    refine congrArg npSumAxis0 (List.map_congr_left ?_)
    intro client _
    exact map_blockScale_getD _ _ _
  rw [hblock]
  rw [npSumAxis0_getD (((clients_params.headD []).getD l []).length) j hj _ ?_]
  · rw [List.map_map]
    refine congrArg List.sum (List.map_congr_left ?_)
    intro client _
    exact blockScale_getD _ _ _
  · intro b hb
    obtain ⟨c, hc, rfl⟩ := List.mem_map.mp hb
    simp only [blockScale, List.length_map]
    exact SameShape.block_length hsh (getD_mem _ _ _ (List.mem_range.mp hc)) l

/-- C2 counterexample: with two clients each holding the single-entry
parameter block [1] and weights [1, 1] (positive sum 2, not summing to 1),
WeightedMean returns [[2]], while with the normalized weights [1/2, 1/2]
it returns [[1]]: the supplied weights are not normalized internally. -/
theorem weighted_not_normalized_counterexample :
    SameShape [[[(1:ℚ)]], [[1]]]
    ∧ (0:ℚ) < ([(1:ℚ), 1]).sum
    ∧ WeightedFedAvgAggregator.aggregate_weights [(1:ℚ), 1] [[[(1:ℚ)]], [[1]]]
        ≠ WeightedFedAvgAggregator.aggregate_weights
            (([(1:ℚ), 1]).map (fun x => x / ([(1:ℚ), 1]).sum)) [[[(1:ℚ)]], [[1]]] := by
  refine ⟨by decide, by norm_num, ?_⟩
  norm_num [WeightedFedAvgAggregator.aggregate_weights, npSumAxis0, blockAdd, blockScale,
    List.range_succ]

/-- Reading a pointwise-divided weight list agrees with dividing the read
weight, the default 0 being fixed by division. -/
lemma getD_map_div (w : List ℚ) (s : ℚ) (c : ℕ) :
    (w.map (fun x => x / s)).getD c 0 = w.getD c 0 / s := by
  by_cases hc : c < w.length
  · rw [List.getD_eq_getElem _ _ (by simpa using hc), List.getD_eq_getElem _ _ hc]
    simp
  · have hle : w.length ≤ c := Nat.le_of_not_lt hc
    rw [List.getD_eq_default _ _ (by simpa using hle), List.getD_eq_default _ _ hle, zero_div]

/-- C2 corrected: WeightedMean uses the supplied weights exactly as given,
with no internal normalization; for weights with nonzero sum the aggregate
under w equals sum(w) times the aggregate under the normalized weights
w / sum(w), elementwise — the two coincide only when sum(w) = 1. -/
theorem weighted_aggregate_scales_with_weight_sum (percentage : List ℚ)
    (clients_params : List (List Block)) (hsh : SameShape clients_params)
    (hs : percentage.sum ≠ 0) (l j : ℕ)
    (hl : l < (clients_params.headD []).length)
    (hj : j < ((clients_params.headD []).getD l []).length) :
    ((WeightedFedAvgAggregator.aggregate_weights percentage clients_params).getD l []).getD j 0
      = percentage.sum
          * ((WeightedFedAvgAggregator.aggregate_weights
              (percentage.map (fun x => x / percentage.sum)) clients_params).getD l []).getD j 0 := by
  rw [weighted_getD percentage clients_params hsh l j hl hj,
    weighted_getD (percentage.map (fun x => x / percentage.sum)) clients_params hsh l j hl hj]
  rw [← List.sum_map_mul_left]
  refine congrArg List.sum (List.map_congr_left ?_)
  intro client _
  rw [getD_map_div]
  field_simp

/-- Witness for the corrected C2 at two concrete clients and weights
[1, 3]: the unnormalized aggregate entry is 4 times the normalized one. -/
theorem weighted_aggregate_scales_with_weight_sum_witness :
    SameShape [[[(1:ℚ)]], [[1]]]
    ∧ ([(1:ℚ), 3]).sum ≠ 0
    ∧ ((WeightedFedAvgAggregator.aggregate_weights [(1:ℚ), 3] [[[(1:ℚ)]], [[1]]]).getD 0 []).getD 0 0
        = ([(1:ℚ), 3]).sum
            * ((WeightedFedAvgAggregator.aggregate_weights
                (([(1:ℚ), 3]).map (fun x => x / ([(1:ℚ), 3]).sum)) [[[(1:ℚ)]], [[1]]]).getD 0 []).getD 0 0 :=
  ⟨by decide, by norm_num,
   weighted_aggregate_scales_with_weight_sum [(1:ℚ), 3] [[[(1:ℚ)]], [[1]]]
     (by decide) (by norm_num) 0 0 (by decide) (by decide)⟩

/-- Two lists are equal when their lengths agree and their getD reads
agree below that length. -/
lemma ext_of_getD {α : Type} (d : α) (a b : List α) (hlen : a.length = b.length)
    (h : ∀ i, i < a.length → a.getD i d = b.getD i d) : a = b := by
  apply List.ext_getElem hlen
  intro i h1 h2
  rw [← List.getD_eq_getElem a d h1, ← List.getD_eq_getElem b d h2]
  exact h i h1

/-- A map over a list is the map over its index range read with getD. -/
lemma map_eq_range_map {α β : Type} (f : α → β) (l : List α) (d : α) :
    l.map f = (List.range l.length).map (fun i => f (l.getD i d)) := by
  apply List.ext_getElem (by simp)
  intro i h1 h2
  simp only [List.getElem_map, List.getElem_range]
  rw [List.getD_eq_getElem l d (by simpa using h1)]

/-- The Mean aggregate has one block per layer of the first client. -/
lemma fedavg_length (clients_params : List (List Block)) :
    (FedAvgAggregator.aggregate_weights clients_params).length
      = (clients_params.headD []).length := by
  unfold FedAvgAggregator.aggregate_weights
  simp

/-- The WeightedMean aggregate has one block per layer of the first
client. -/
lemma weighted_length (percentage : List ℚ) (clients_params : List (List Block)) :
    (WeightedFedAvgAggregator.aggregate_weights percentage clients_params).length
      = (clients_params.headD []).length := by
  unfold WeightedFedAvgAggregator.aggregate_weights
  simp

/-- Each block of the Mean aggregate has the first client's block
length. -/
lemma fedavg_block_length (clients_params : List (List Block))
    (hsh : SameShape clients_params) (hne : clients_params ≠ []) (l : ℕ)
    (hl : l < (clients_params.headD []).length) :
    ((FedAvgAggregator.aggregate_weights clients_params).getD l []).length
      = ((clients_params.headD []).getD l []).length := by
  have hblock : (FedAvgAggregator.aggregate_weights clients_params).getD l []
      = npMeanAxis0 (clients_params.map (fun cp => cp.getD l [])) := by
    unfold FedAvgAggregator.aggregate_weights
    rw [List.getD_eq_getElem _ _ (by simpa using hl)]
    simp only [List.getElem_map, List.getElem_range]
  rw [hblock]
  refine npMeanAxis0_length _ _ ?_ ?_
  · intro hcon
    exact hne (by simpa using hcon)
  · intro b hb
    obtain ⟨cp, hcp, rfl⟩ := List.mem_map.mp hb
    exact SameShape.block_length hsh hcp l

/-- Each block of the WeightedMean aggregate has the first client's block
length. -/
lemma weighted_block_length (percentage : List ℚ) (clients_params : List (List Block))
    (hsh : SameShape clients_params) (hne : clients_params ≠ []) (l : ℕ)
    (hl : l < (clients_params.headD []).length) :
    ((WeightedFedAvgAggregator.aggregate_weights percentage clients_params).getD l []).length
      = ((clients_params.headD []).getD l []).length := by
  have hblock : (WeightedFedAvgAggregator.aggregate_weights percentage clients_params).getD l []
      = npSumAxis0 ((List.range clients_params.length).map
          (fun client => blockScale (percentage.getD client 0)
            ((clients_params.getD client []).getD l []))) := by
    unfold WeightedFedAvgAggregator.aggregate_weights
    rw [List.getD_eq_getElem _ _ (by simpa using hl)]
    simp only [List.getElem_map, List.getElem_range, List.map_map]
    refine congrArg npSumAxis0 (List.map_congr_left ?_)
    intro client _
    exact map_blockScale_getD _ _ _
  rw [hblock]
  refine npSumAxis0_length _ _ ?_ ?_
  · intro hcon
    have hzero : clients_params.length = 0 := by simpa using hcon
    exact hne (List.length_eq_zero.mp hzero)
  · intro b hb
    obtain ⟨c, hc, rfl⟩ := List.mem_map.mp hb
    simp only [blockScale, List.length_map]
    exact SameShape.block_length hsh (getD_mem _ _ _ (List.mem_range.mp hc)) l

/-- C3 counterexample: with two clients each holding the single-entry
block [1] and the uniform weight vector [1, 1], WeightedMean returns
[[2]] while Mean returns [[1]]: since the supplied weights are not
normalized, uniform weights reproduce Mean only when they sum to 1. -/
theorem weighted_uniform_equals_mean_counterexample :
    SameShape [[[(1:ℚ)]], [[1]]]
    ∧ WeightedFedAvgAggregator.aggregate_weights [(1:ℚ), 1] [[[(1:ℚ)]], [[1]]]
        ≠ FedAvgAggregator.aggregate_weights [[[(1:ℚ)]], [[1]]] := by
  refine ⟨by decide, ?_⟩
  norm_num [WeightedFedAvgAggregator.aggregate_weights, FedAvgAggregator.aggregate_weights,
    npSumAxis0, npMeanAxis0, blockAdd, blockScale, List.range_succ]

/-- C3 corrected: WeightedMean with the uniform weight vector giving each
of the n clients the weight 1/n (the uniform weights summing to 1)
returns exactly the Mean aggregate; a uniform weight vector with a
different constant scales the Mean instead, as the counterexample
shows. -/
theorem weighted_uniform_normalized_equals_mean (clients_params : List (List Block))
    (hsh : SameShape clients_params) (hne : clients_params ≠ []) :
    WeightedFedAvgAggregator.aggregate_weights
        (List.replicate clients_params.length (1 / (clients_params.length : ℚ)))
        clients_params
      = FedAvgAggregator.aggregate_weights clients_params := by
  apply ext_of_getD []
  · rw [weighted_length, fedavg_length]
  · intro l hl2
    have hl : l < (clients_params.headD []).length := by
      rwa [weighted_length] at hl2
    apply ext_of_getD 0
    · rw [weighted_block_length _ _ hsh hne l hl, fedavg_block_length _ hsh hne l hl]
    · intro j hj2
      have hj : j < ((clients_params.headD []).getD l []).length := by
        rwa [weighted_block_length _ _ hsh hne l hl] at hj2
      rw [weighted_getD _ _ hsh l j hl hj, fedavg_getD _ hsh l j hl hj]
      rw [map_eq_range_map (fun cp => (cp.getD l []).getD j 0) clients_params []]
      rw [← List.sum_map_mul_left]
      refine congrArg List.sum (List.map_congr_left ?_)
      intro c hc
      have hcn : c < clients_params.length := List.mem_range.mp hc
      rw [List.getD_eq_getElem _ _ (by simpa using hcn)]
      simp

/-- Witness for the corrected C3 at two concrete clients: WeightedMean
with weights [1/2, 1/2] equals Mean. -/
theorem weighted_uniform_normalized_equals_mean_witness :
    SameShape [[[(1:ℚ)]], [[2]]]
    ∧ ([[[(1:ℚ)]], [[2]]] : List (List Block)) ≠ []
    ∧ WeightedFedAvgAggregator.aggregate_weights
        (List.replicate ([[[(1:ℚ)]], [[2]]] : List (List Block)).length
          (1 / ((([[[(1:ℚ)]], [[2]]] : List (List Block)).length : ℚ))))
        [[[(1:ℚ)]], [[2]]]
      = FedAvgAggregator.aggregate_weights [[[(1:ℚ)]], [[2]]] :=
  ⟨by decide, by decide,
   weighted_uniform_normalized_equals_mean [[[(1:ℚ)]], [[2]]] (by decide) (by decide)⟩

/-- C5: Mean aggregation is order-independent: aggregating any permutation
of the client-parameter list yields the same aggregate as the original
order (Mean consumes no weights, so there are none to permute
alongside). -/
theorem fedavg_aggregate_perm_invariant (clients_params permuted : List (List Block))
    (hsh : SameShape clients_params) (hperm : permuted.Perm clients_params)
    (hne : clients_params ≠ []) :
    FedAvgAggregator.aggregate_weights permuted
      = FedAvgAggregator.aggregate_weights clients_params := by
  have hlen := hperm.length_eq
  have hne2 : permuted ≠ [] := by
    intro hcon
    apply hne
    apply List.length_eq_zero.mp
    rw [← hlen, hcon]
    rfl
  have hmem : permuted.headD [] ∈ clients_params := by
    rw [headD_eq_head_of_ne_nil _ _ hne2]
    exact hperm.mem_iff.mp (List.head_mem hne2)
  have hshape2 : (permuted.headD []).map List.length
      = (clients_params.headD []).map List.length := hsh _ hmem
  have hL : (permuted.headD []).length = (clients_params.headD []).length := by
    have hc := congrArg List.length hshape2
    simpa using hc
  have hsh2 : SameShape permuted := by
    intro cp hcp
    rw [hsh cp (hperm.mem_iff.mp hcp), ← hshape2]
  have hd : ∀ l : ℕ, ((permuted.headD []).getD l []).length
      = ((clients_params.headD []).getD l []).length := by
    intro l
    rw [← getD_map_length, ← getD_map_length, hshape2]
  apply ext_of_getD []
  · rw [fedavg_length, fedavg_length, hL]
  · intro l hl2
    have hl : l < (permuted.headD []).length := by rwa [fedavg_length] at hl2
    have hlc : l < (clients_params.headD []).length := by rwa [hL] at hl
    apply ext_of_getD 0
    · rw [fedavg_block_length _ hsh2 hne2 l hl, fedavg_block_length _ hsh hne l hlc, hd l]
    · intro j hj2
      have hj : j < ((permuted.headD []).getD l []).length := by
        rwa [fedavg_block_length _ hsh2 hne2 l hl] at hj2
      have hjc : j < ((clients_params.headD []).getD l []).length := by rwa [hd l] at hj
      rw [fedavg_getD _ hsh2 l j hl hj, fedavg_getD _ hsh l j hlc hjc, hlen]
      congr 1
      exact (hperm.map _).sum_eq

/-- Witness for C5 at two concrete clients swapped. -/
theorem fedavg_aggregate_perm_invariant_witness :
    SameShape [[[(1:ℚ)], [2]], [[3], [4]]]
    ∧ ([[[(3:ℚ)], [4]], [[1], [2]]] : List (List Block)).Perm [[[(1:ℚ)], [2]], [[3], [4]]]
    ∧ ([[[(1:ℚ)], [2]], [[3], [4]]] : List (List Block)) ≠ []
    ∧ FedAvgAggregator.aggregate_weights [[[(3:ℚ)], [4]], [[1], [2]]]
        = FedAvgAggregator.aggregate_weights [[[(1:ℚ)], [2]], [[3], [4]]] :=
  ⟨by decide, by decide, by decide,
   fedavg_aggregate_perm_invariant [[[(1:ℚ)], [2]], [[3], [4]]] [[[(3:ℚ)], [4]], [[1], [2]]]
     (by decide) (by decide) (by decide)⟩

/-- C8: applying a transformation to a node calls it on the node's private
labeled data and the node afterwards holds the transformed data, which a
subsequent query observes; the federated version does the same on every
node of the collection. -/
theorem apply_transformation_mutates_private_data {α β : Type}
    (t : LabeledData α β → LabeledData α β) (node : DataNode α β)
    (federated_data : List (DataNode α β)) :
    (node.apply_data_transformation t).privateData = t node.privateData
    ∧ (node.apply_data_transformation t).query = t node.privateData
    ∧ (apply_federated_transformation federated_data t).map DataNode.query
        = federated_data.map (fun nd => t nd.privateData) := by
  refine ⟨rfl, rfl, ?_⟩
  simp [apply_federated_transformation, DataNode.query, DataNode.apply_data_transformation]

/-- C9: apply_attack stores exactly the drawn sample in its adversaries
property — of size int(percentage / 100 * num_nodes) by the contract of
random.sample, embedded as the hypotheses on the `sample` argument —
applies the shuffling transformation to exactly the nodes at sampled
indices, and returns every other node unchanged, with the federation's
length preserved. -/
theorem apply_attack_poisons_exactly_adversaries {α β : Type}
    (atk : FederatedPoisoningDataAttack) (sample : List ℕ)
    (shuffleT : LabeledData α β → LabeledData α β)
    (federated_data : List (DataNode α β))
    (hnd : sample.Nodup)
    (hmem : ∀ x ∈ sample, x < federated_data.length)
    (hk : sample.length
      = Int.toNat ⌊atk.percentage / 100 * (federated_data.length : ℚ)⌋) :
    (atk.apply_attack sample shuffleT federated_data).1.adversaries = sample
    ∧ (atk.apply_attack sample shuffleT federated_data).1.adversaries.length
        = Int.toNat ⌊atk.percentage / 100 * (federated_data.length : ℚ)⌋
    ∧ (atk.apply_attack sample shuffleT federated_data).2.length = federated_data.length
    ∧ ∀ (i : ℕ) (hi : i < federated_data.length),
        (i ∈ sample →
          (atk.apply_attack sample shuffleT federated_data).2[i]?
            = some (federated_data[i].apply_data_transformation shuffleT))
        ∧ (i ∉ sample →
          (atk.apply_attack sample shuffleT federated_data).2[i]?
            = some federated_data[i]) := by
  have h2len : (atk.apply_attack sample shuffleT federated_data).2.length
      = federated_data.length := by
    simp [FederatedPoisoningDataAttack.apply_attack]
  refine ⟨rfl, hk, h2len, ?_⟩
  intro i hi
  have hib : i < (atk.apply_attack sample shuffleT federated_data).2.length := by
    rw [h2len]
    exact hi
  have hval : (atk.apply_attack sample shuffleT federated_data).2[i]
      = if i ∈ sample then federated_data[i].apply_data_transformation shuffleT
        else federated_data[i] := by
    simp only [FederatedPoisoningDataAttack.apply_attack, List.getElem_map, List.getElem_zip,
      List.getElem_range]
    by_cases his : i ∈ sample <;> simp [his]
  constructor
  · intro his
    rw [List.getElem?_eq_getElem hib, hval, if_pos his]
  · intro hnis
    rw [List.getElem?_eq_getElem hib, hval, if_neg hnis]

/-- Witness for C9: one node, percentage 100, sample [0]; the single node
is poisoned and recorded as the adversary. -/
theorem apply_attack_poisons_exactly_adversaries_witness :
    ([0] : List ℕ).Nodup
    ∧ (∀ x ∈ ([0] : List ℕ),
        x < ([⟨⟨(1:ℚ), [0, 1]⟩⟩] : List (DataNode ℚ (List ℕ))).length)
    ∧ ([0] : List ℕ).length
        = Int.toNat ⌊(⟨100, []⟩ : FederatedPoisoningDataAttack).percentage / 100
            * (([⟨⟨(1:ℚ), [0, 1]⟩⟩] : List (DataNode ℚ (List ℕ))).length : ℚ)⌋
    ∧ ((⟨100, []⟩ : FederatedPoisoningDataAttack).apply_attack [0]
          (fun ld => ⟨ld.data, ld.label.reverse⟩)
          [⟨⟨(1:ℚ), [0, 1]⟩⟩]).1.adversaries = [0]
    ∧ ((⟨100, []⟩ : FederatedPoisoningDataAttack).apply_attack [0]
          (fun ld => ⟨ld.data, ld.label.reverse⟩)
          [⟨⟨(1:ℚ), [0, 1]⟩⟩]).1.adversaries.length
        = Int.toNat ⌊(⟨100, []⟩ : FederatedPoisoningDataAttack).percentage / 100
            * (([⟨⟨(1:ℚ), [0, 1]⟩⟩] : List (DataNode ℚ (List ℕ))).length : ℚ)⌋
    ∧ ((⟨100, []⟩ : FederatedPoisoningDataAttack).apply_attack [0]
          (fun ld => ⟨ld.data, ld.label.reverse⟩)
          [⟨⟨(1:ℚ), [0, 1]⟩⟩]).2.length
        = ([⟨⟨(1:ℚ), [0, 1]⟩⟩] : List (DataNode ℚ (List ℕ))).length
    ∧ ∀ (i : ℕ) (hi : i < ([⟨⟨(1:ℚ), [0, 1]⟩⟩] : List (DataNode ℚ (List ℕ))).length),
        (i ∈ ([0] : List ℕ) →
          ((⟨100, []⟩ : FederatedPoisoningDataAttack).apply_attack [0]
              (fun ld => ⟨ld.data, ld.label.reverse⟩)
              [⟨⟨(1:ℚ), [0, 1]⟩⟩]).2[i]?
            = some ((([⟨⟨(1:ℚ), [0, 1]⟩⟩] : List (DataNode ℚ (List ℕ)))[i]).apply_data_transformation
                (fun ld => ⟨ld.data, ld.label.reverse⟩)))
        ∧ (i ∉ ([0] : List ℕ) →
          ((⟨100, []⟩ : FederatedPoisoningDataAttack).apply_attack [0]
              (fun ld => ⟨ld.data, ld.label.reverse⟩)
              [⟨⟨(1:ℚ), [0, 1]⟩⟩]).2[i]?
            = some (([⟨⟨(1:ℚ), [0, 1]⟩⟩] : List (DataNode ℚ (List ℕ)))[i])) := by
  have hk : ([0] : List ℕ).length
      = Int.toNat ⌊(⟨100, []⟩ : FederatedPoisoningDataAttack).percentage / 100
          * (([⟨⟨(1:ℚ), [0, 1]⟩⟩] : List (DataNode ℚ (List ℕ))).length : ℚ)⌋ := by
    norm_num
  have hmem : ∀ x ∈ ([0] : List ℕ),
      x < ([⟨⟨(1:ℚ), [0, 1]⟩⟩] : List (DataNode ℚ (List ℕ))).length := by decide
  obtain ⟨ha, hb, hc, hd⟩ := apply_attack_poisons_exactly_adversaries
    (⟨100, []⟩ : FederatedPoisoningDataAttack) [0]
    (fun ld => ⟨ld.data, ld.label.reverse⟩) [⟨⟨(1:ℚ), [0, 1]⟩⟩]
    (by decide) hmem hk
  exact ⟨by decide, hmem, hk, ha, hb, hc, hd⟩

/-- The identity index arrangement reads back the whole list. -/
lemma range_map_getD {γ : Type} [Inhabited γ] (l : List γ) :
    (List.range l.length).map (fun i => l.getD i default) = l := by
  apply List.ext_getElem (by simp)
  intro i h1 h2
  simp only [List.getElem_map, List.getElem_range]
  exact List.getD_eq_getElem l default h2

/-- C10: ShuffleNode.apply leaves the node's feature data unchanged and
replaces the label sequence by a permutation of it — for every index
arrangement js that is a rearrangement of the label index range, as drawn
by random.shuffle — so the multiset of labels is preserved. -/
theorem shuffle_node_permutes_labels {α γ : Type} [Inhabited γ] (js : List ℕ)
    (labeled_data : LabeledData α (List γ))
    (h : js.Perm (List.range labeled_data.label.length)) :
    (ShuffleNode.apply js labeled_data).data = labeled_data.data
    ∧ (ShuffleNode.apply js labeled_data).label.Perm labeled_data.label
    ∧ (↑(ShuffleNode.apply js labeled_data).label : Multiset γ)
        = (↑labeled_data.label : Multiset γ) := by
  have hperm : (ShuffleNode.apply js labeled_data).label.Perm labeled_data.label := by
    have h2 := h.map (fun i => labeled_data.label.getD i default)
    rw [range_map_getD] at h2
    exact h2
  exact ⟨rfl, hperm, Multiset.coe_eq_coe.mpr hperm⟩

/-- Witness for C10 at the label list [10, 20, 30] rearranged by
[2, 0, 1]. -/
theorem shuffle_node_permutes_labels_witness :
    ([2, 0, 1] : List ℕ).Perm
        (List.range (⟨(1:ℚ), [10, 20, 30]⟩ : LabeledData ℚ (List ℕ)).label.length)
    ∧ (ShuffleNode.apply [2, 0, 1] (⟨(1:ℚ), [10, 20, 30]⟩ : LabeledData ℚ (List ℕ))).data
        = (⟨(1:ℚ), [10, 20, 30]⟩ : LabeledData ℚ (List ℕ)).data
    ∧ (ShuffleNode.apply [2, 0, 1] (⟨(1:ℚ), [10, 20, 30]⟩ : LabeledData ℚ (List ℕ))).label.Perm
        (⟨(1:ℚ), [10, 20, 30]⟩ : LabeledData ℚ (List ℕ)).label
    ∧ (↑(ShuffleNode.apply [2, 0, 1] (⟨(1:ℚ), [10, 20, 30]⟩ : LabeledData ℚ (List ℕ))).label
          : Multiset ℕ)
        = (↑(⟨(1:ℚ), [10, 20, 30]⟩ : LabeledData ℚ (List ℕ)).label : Multiset ℕ) :=
  ⟨by decide,
   shuffle_node_permutes_labels [2, 0, 1] (⟨(1:ℚ), [10, 20, 30]⟩ : LabeledData ℚ (List ℕ))
     (by decide)⟩
